import Mathlib

/-!
Verification of the futures-based task scheduler exercised by the
dask-examples notebooks (`futures.ipynb`).

The notebooks call into an external scheduling engine (`dask.distributed`);
the engine itself is not part of the repository, so its data model and
operations (task graph, scheduler steps, completion streams, `result()`)
are modelled from the specification, while the computations the notebook
builds on top of it (the `inc`/`double`/`add` callables, the chained
submissions, the static tree reduction loop and the dynamic
`as_completed` drain loop) are embedded directly from the notebook code.
-/

namespace DaskFutures

/-- The callables used by the notebook cells: `inc`, `double` and `add`
(`futures.ipynb`, "Create simple functions" cell; the random sleeps only
affect timing, not values).  `constF v` models a leaf future holding a
known value, and `failF` models a task body that raises. -/
inductive Func where
  | constF (v : Int)
  | inc
  | double
  | add
  | failF
deriving DecidableEq, Repr

/-- Modelled from the spec: an argument slot of a Task is
"either a literal value or a reference to another Task's output". -/
inductive Arg where
  | lit (v : Int)
  | ref (i : Nat)
deriving DecidableEq, Repr

/-- Modelled from the spec: a Task has a callable reference and a fixed
ordered list of argument slots.  Task identity is its index in the task
list, so edges are implicit via `Arg.ref`. -/
structure Task where
  fn : Func
  args : List Arg
deriving DecidableEq, Repr

/-- Modelled from the spec: the terminal payload of a Task or Future.
`ok v` is a finished task's value, `taskError` a task body that raised,
`depError` failed-by-dependency (cascaded), `cancelled` a cancellation. -/
inductive Outcome where
  | ok (v : Int)
  | taskError
  | depError
  | cancelled
deriving DecidableEq, Repr

/-- Evaluation of the notebook's callables on materialized argument
values.  An arity mismatch raises, hence `taskError`. -/
def applyFunc : Func → List Int → Outcome
  | .constF v, [] => .ok v
  | .inc, [x] => .ok (x + 1)
  | .double, [x] => .ok (2 * x)
  | .add, [x, y] => .ok (x + y)
  | _, _ => .taskError

/-- Materialize a list of argument slots through an argument-evaluation
function: `some` of the values when every slot evaluates to `ok`,
`none` as soon as some slot carries an error. -/
def gatherVals (f : Arg → Outcome) : List Arg → Option (List Int)
  | [] => some []
  | a :: as =>
    match f a with
    | .ok v => (gatherVals f as).map (fun vs => v :: vs)
    | _ => none

/-- Argument evaluation against a list of already-computed outcomes:
a literal is its value, a reference reads the outcome at that index. -/
def argEvalL (res : List Outcome) : Arg → Outcome
  | .lit v => .ok v
  | .ref i => (res[i]?).getD .taskError

/-- Modelled from the spec: run one task given the outcomes of earlier
tasks.  The worker is invoked (and may itself fail) only when every
dependency materialized to `ok`; otherwise the task is
failed-by-dependency without its callable being invoked. -/
def runTaskL (res : List Outcome) (t : Task) : Outcome :=
  match gatherVals (argEvalL res) t.args with
  | some vs => applyFunc t.fn vs
  | none => .depError

/-- Sequential evaluation of the first `n` tasks of the graph, in
submission order; the reference semantics of the callable chain. -/
def seqUpTo (g : List Task) : Nat → List Outcome
  | 0 => []
  | n + 1 =>
    seqUpTo g n ++ [match g[n]? with
      | some t => runTaskL (seqUpTo g n) t
      | none => .taskError]

/-- The sequential outcome of task `n`. -/
def outAt (g : List Task) (n : Nat) : Outcome :=
  match g[n]? with
  | some t => runTaskL (seqUpTo g n) t
  | none => .taskError

/-- Whether task `n`'s callable is invoked at all under sequential
evaluation (false exactly when some dependency did not resolve to a
value, i.e. the task is failed-by-dependency). -/
def invokedAt (g : List Task) (n : Nat) : Bool :=
  match g[n]? with
  | some t => (gatherVals (argEvalL (seqUpTo g n)) t.args).isSome
  | none => false

/-- All references in `args` point below index `k`. -/
def refsBelow (k : Nat) (args : List Arg) : Bool :=
  args.all fun a =>
    match a with
    | .lit _ => true
    | .ref i => decide (i < k)

/-- Auxiliary well-formedness scan starting at index `k`. -/
def wfFrom : Nat → List Task → Bool
  | _, [] => true
  | k, t :: ts => refsBelow k t.args && wfFrom (k + 1) ts

/-- Modelled from the spec: "a new Task may only reference previously
created Tasks, enforced at submission time, making cycles structurally
impossible".  A graph is well formed when every task only references
tasks with smaller indices. -/
def wfb (g : List Task) : Bool := wfFrom 0 g

/-- Modelled from the spec: the observable scheduler state.  `store i`
is the terminal outcome of task `i` once it has one (`none` while the
task is still pending), and `cnt i` counts how many times task `i`'s
callable has been invoked by a worker. -/
structure EngState where
  store : Nat → Option Outcome
  cnt : Nat → Nat

/-- Initial scheduler state: every future pending, no callable run. -/
def initState : EngState := ⟨fun _ => none, fun _ => 0⟩

/-- Modelled from the spec: the operations that can move a Task's
status — a worker executing it, or a cancellation request. -/
inductive Action where
  | run (j : Nat)
  | cancel (j : Nat)
deriving DecidableEq, Repr

/-- Argument evaluation against the scheduler store.  A reference to a
task that is not yet terminal has no value; the `taskError` default is
never exercised on dependency-respecting schedules. -/
def argEvalS (store : Nat → Option Outcome) : Arg → Outcome
  | .lit v => .ok v
  | .ref i => (store i).getD .taskError

/-- Modelled from the spec: one scheduler transition.  Running task `j`
records exactly one terminal outcome for it — a worker result when all
dependencies materialized, `depError` otherwise (its callable is not
invoked) — "unless the task is already terminal"; a cancellation marks
a still-pending task `cancelled` and is a no-op on a terminal task. -/
def step (g : List Task) (s : EngState) : Action → EngState
  | .run j =>
    match s.store j with
    | some _ => s
    | none =>
      match g[j]? with
      | none => s
      | some t =>
        match gatherVals (argEvalS s.store) t.args with
        | some vs =>
          ⟨fun k => if k = j then some (applyFunc t.fn vs) else s.store k,
           fun k => if k = j then s.cnt k + 1 else s.cnt k⟩
        | none =>
          ⟨fun k => if k = j then some .depError else s.store k, s.cnt⟩
  | .cancel j =>
    match s.store j with
    | some _ => s
    | none => ⟨fun k => if k = j then some .cancelled else s.store k, s.cnt⟩

/-- Modelled from the spec: the scheduler consuming a sequence of
actions. -/
def exec (g : List Task) : List Action → EngState → EngState
  | [], s => s
  | a :: as, s => exec g as (step g s a)

/-- All dependencies of `args` are among the already-completed tasks. -/
def depsDone (done : List Nat) (args : List Arg) : Bool :=
  args.all fun a =>
    match a with
    | .lit _ => true
    | .ref i => decide (i ∈ done)

/-- Modelled from the spec: a dependency-respecting dispatch order
starting after the tasks in `done` have completed: each dispatched task
exists, has not been dispatched before, and has all its dependencies
completed ("a task's body never starts before all its dependencies are
terminal"). -/
def validFrom (g : List Task) : List Nat → List Nat → Bool
  | _, [] => true
  | done, j :: rest =>
    match g[j]? with
    | none => false
    | some t => decide (j ∉ done) && depsDone done t.args && validFrom g (j :: done) rest

/-- Run a completion order `σ` (a list of task indices) from the initial
state. -/
def runExec (g : List Task) (σ : List Nat) : EngState :=
  exec g (σ.map Action.run) initState

/-- Whether an outcome is a failure (a raised task body or a cascaded
dependency failure). -/
def errB : Outcome → Bool
  | .ok _ => false
  | .cancelled => false
  | _ => true

/-- Task `b` consumes the output of task `a` through one of its
argument slots. -/
def DirectDep (g : List Task) (b a : Nat) : Prop :=
  ∃ t, g[b]? = some t ∧ Arg.ref a ∈ t.args

/-- Task `b` depends, directly or transitively, on task `a`. -/
def Depends (g : List Task) (b a : Nat) : Prop :=
  Relation.TransGen (DirectDep g) b a

/-- The invariant tying a partially executed schedule to sequential
evaluation: a completed task carries its sequential outcome and its
sequential invocation count, every other task is still pending. -/
def Inv (g : List Task) (done : List Nat) (s : EngState) : Prop :=
  (∀ i ∈ done, s.store i = some (outAt g i) ∧
      s.cnt i = (if invokedAt g i then 1 else 0)) ∧
  (∀ i, i ∉ done → s.store i = none ∧ s.cnt i = 0)

/-- Modelled from the spec: `submit(callable, args) -> Future` appends a
new task to the graph and returns its id; non-blocking, no data copied. -/
def submit (g : List Task) (fn : Func) (args : List Arg) : List Task × Nat :=
  (g ++ [⟨fn, args⟩], g.length)

/-- Modelled from the spec: `map(callable, sequence_of_args)` applies
`submit` elementwise, returning the resulting futures in input order
(the notebook's `client.map(inc, zs)`). -/
def clientMap : List Task → Func → List Arg → List Task × List Nat
  | g, _, [] => (g, [])
  | g, fn, a :: as =>
    let p := submit g fn [a]
    let q := clientMap p.1 fn as
    (q.1, p.2 :: q.2)

/-- Modelled from the spec: `Future.result()` on a scheduler state reads
the stored terminal outcome of the task and leaves the scheduler state
untouched (no re-execution of the task body). -/
def result (s : EngState) (i : Nat) : Option Outcome × EngState :=
  (s.store i, s)

/-- Modelled from the spec: a CompletionStream's observable state — the
enrolled futures not yet yielded by `next()`, in arrival order. -/
structure CStream (α : Type) where
  pend : List α
deriving DecidableEq, Repr

/-- `as_completed(futures)` enrolls an initial set of futures. -/
def asCompleted {α : Type} (fs : List α) : CStream α := ⟨fs⟩

/-- Modelled from the spec: `count()` returns the number of enrolled
futures not yet yielded by `next()`. -/
def count {α : Type} (s : CStream α) : Nat := s.pend.length

/-- Modelled from the spec: `next()` yields one not-yet-yielded future
and removes it from the stream.  Which one completes first is external
nondeterminism, so the position `p` is a parameter; `none` means no
enrolled future is available at that position. -/
def nextF {α : Type} (s : CStream α) (p : Nat) : Option (α × CStream α) :=
  match s.pend[p]? with
  | some x => some (x, ⟨s.pend.eraseIdx p⟩)
  | none => none

/-- Modelled from the spec: `add(future)` enrolls a new future, which
may happen mid-drain. -/
def addF {α : Type} (s : CStream α) (x : α) : CStream α := ⟨s.pend ++ [x]⟩

/-- Drain the stream once per element of `picks` via `next()`, with no
intervening `add()`. -/
def drainN {α : Type} : CStream α → List Nat → Option (CStream α)
  | s, [] => some s
  | s, p :: ps =>
    match nextF s p with
    | some (_, s') => drainN s' ps
    | none => none

/-- One iteration of the notebook's dynamic drain loop
(`futures.ipynb`, `as_completed` cell): `a = next(seq)`,
`b = next(seq)`, `new = client.submit(add, a, b)`, `seq.add(new)`,
tracked at the level of the futures' resolved values. -/
def mergeStep (s : CStream Int) (p q : Nat) : Option (CStream Int) :=
  match nextF s p with
  | none => none
  | some (a, s1) =>
    match nextF s1 q with
    | none => none
    | some (b, s2) => some (addF s2 (a + b))

/-- The notebook's `while seq.count() > 1` drain loop.  `picks` is the
oracle of completion orders (which pending future each `next()`
returns); the loop stops as soon as a single future remains and returns
the final stream together with the unconsumed part of the oracle. -/
def mergeLoop : CStream Int → List (Nat × Nat) → Option (CStream Int × List (Nat × Nat))
  | s, picks =>
    if count s ≤ 1 then some (s, picks)
    else
      match picks with
      | [] => none
      | (p, q) :: rest =>
        match mergeStep s p q with
        | some s' => mergeLoop s' rest
        | none => none

/-- One level of the notebook's static tree reduction
(`for i in range(0, len(L), 2): client.submit(add, L[i], L[i + 1])`),
at the level of resolved values.  A trailing unpaired element makes
`L[i + 1]` an out-of-bounds access, hence `none`. -/
def pairAdjacent : List Int → Option (List Int)
  | [] => some []
  | [_] => none
  | a :: b :: rest => (pairAdjacent rest).map (fun l => (a + b) :: l)

/-- The notebook's `while len(L) > 1` level loop, value level.  The
fuel argument bounds the number of levels; since every successful level
halves the list, `l.length` levels always suffice. -/
def treeReduceAux : Nat → List Int → Option Int
  | _, [] => none
  | _, [a] => some a
  | 0, _ => none
  | n + 1, l =>
    match pairAdjacent l with
    | some l' => treeReduceAux n l'
    | none => none

/-- Aggregate result of the static tree reduction: the value of the
single future left in `L` when the level loop exits. -/
def treeReduce (l : List Int) : Option Int := treeReduceAux l.length l

/-- One level of the static tree reduction at the task-graph level:
submit an `add` task for each pair of adjacent futures, returning the
extended graph and the new futures in order. -/
def buildLevel : List Task → List Nat → Option (List Task × List Nat)
  | g, [] => some (g, [])
  | _, [_] => none
  | g, a :: b :: rest =>
    match buildLevel (g ++ [⟨.add, [.ref a, .ref b]⟩]) rest with
    | some (g', ids) => some (g', g.length :: ids)
    | none => none

/-- The notebook's tree reduction loop at the task-graph level, with a
fuel bound on the number of levels (one level at least halves `L`, so
`L.length` levels always suffice). -/
def buildTreeAux : Nat → List Task → List Nat → Option (List Task × Nat)
  | _, _, [] => none
  | _, g, [f] => some (g, f)
  | 0, _, _ => none
  | n + 1, g, L =>
    match buildLevel g L with
    | some (g', ids) => buildTreeAux n g' ids
    | none => none

/-- Run the static tree reduction loop on the futures `L` over graph
`g`, returning the extended graph and the root future. -/
def buildTree (g : List Task) (L : List Nat) : Option (List Task × Nat) :=
  buildTreeAux L.length g L

/-- The notebook's `client.submit(inc, 1)`. -/
def gInc1 : List Task := [⟨.inc, [.lit 1]⟩]

/-- The notebook's chained submissions `x = submit(inc, 1)`,
`y = submit(double, 2)`, `z = submit(add, x, y)`. -/
def gChain : List Task :=
  [⟨.inc, [.lit 1]⟩, ⟨.double, [.lit 2]⟩, ⟨.add, [.ref 0, .ref 1]⟩]

/-- A failing task with a direct and a transitive dependent. -/
def gFailChain : List Task :=
  [⟨.failF, []⟩, ⟨.inc, [.ref 0]⟩, ⟨.add, [.ref 1, .lit 5]⟩]

/-- Eight leaf futures with known values. -/
def leaves8 (v0 v1 v2 v3 v4 v5 v6 v7 : Int) : List Task :=
  [⟨.constF v0, []⟩, ⟨.constF v1, []⟩, ⟨.constF v2, []⟩, ⟨.constF v3, []⟩,
   ⟨.constF v4, []⟩, ⟨.constF v5, []⟩, ⟨.constF v6, []⟩, ⟨.constF v7, []⟩]

/-- The task graph the static tree reduction builds over eight leaves. -/
def tree8G (v0 v1 v2 v3 v4 v5 v6 v7 : Int) : List Task :=
  leaves8 v0 v1 v2 v3 v4 v5 v6 v7 ++
  [⟨.add, [.ref 0, .ref 1]⟩, ⟨.add, [.ref 2, .ref 3]⟩,
   ⟨.add, [.ref 4, .ref 5]⟩, ⟨.add, [.ref 6, .ref 7]⟩,
   ⟨.add, [.ref 8, .ref 9]⟩, ⟨.add, [.ref 10, .ref 11]⟩,
   ⟨.add, [.ref 12, .ref 13]⟩]

theorem seqUpTo_length (g : List Task) : ∀ n, (seqUpTo g n).length = n := by
  intro n
  induction n with
  | zero => rfl
  | succ n ih => simp [seqUpTo, ih]

theorem seqUpTo_succ (g : List Task) (n : Nat) :
    seqUpTo g (n + 1) = seqUpTo g n ++ [outAt g n] := rfl

theorem seqUpTo_get (g : List Task) :
    ∀ {n i : Nat}, i < n → (seqUpTo g n)[i]? = some (outAt g i) := by
  intro n
  induction n with
  | zero => intro i hi; omega
  | succ n ih =>
    intro i hi
    rw [seqUpTo_succ]
    rcases Nat.lt_succ_iff_lt_or_eq.mp hi with h | h
    · rw [List.getElem?_append_left (by rw [seqUpTo_length]; exact h)]
      exact ih h
    · subst h
      rw [List.getElem?_append_right (by rw [seqUpTo_length])]
      simp [seqUpTo_length]

theorem gatherVals_congr (f f' : Arg → Outcome) :
    ∀ (args : List Arg), (∀ a ∈ args, f a = f' a) →
      gatherVals f args = gatherVals f' args := by
  intro args
  induction args with
  | nil => intro _; rfl
  | cons a as ih =>
    intro h
    have ha := h a (by simp)
    have hrest := ih fun b hb => h b (by simp [hb])
    simp only [gatherVals, ha, hrest]

theorem wfFrom_ref (g : List Task) :
    ∀ (k j : Nat) (t : Task), wfFrom k g = true → g[j]? = some t →
      ∀ i, Arg.ref i ∈ t.args → i < k + j := by
  induction g with
  | nil => intro k j t _ hj; simp at hj
  | cons t0 ts ih =>
    intro k j t hw hj i hi
    simp only [wfFrom, Bool.and_eq_true] at hw
    match j with
    | 0 =>
      simp only [List.getElem?_cons_zero, Option.some.injEq] at hj
      subst hj
      have := hw.1
      simp only [refsBelow, List.all_eq_true] at this
      have h2 := this (Arg.ref i) hi
      simp at h2
      omega
    | j' + 1 =>
      simp only [List.getElem?_cons_succ] at hj
      have := ih (k + 1) j' t hw.2 hj i hi
      omega

theorem wfb_ref (g : List Task) (hwf : wfb g = true) {j : Nat} {t : Task}
    (hj : g[j]? = some t) {i : Nat} (hi : Arg.ref i ∈ t.args) : i < j := by
  have := wfFrom_ref g 0 j t hwf hj i hi
  omega

theorem Inv_init (g : List Task) : Inv g [] initState := by
  constructor
  · intro i hi; simp at hi
  · intro i _; exact ⟨rfl, rfl⟩

theorem Inv_step_run (g : List Task) (done : List Nat) (s : EngState) (j : Nat) (t : Task)
    (hwf : wfb g = true) (hj : g[j]? = some t) (hnd : j ∉ done)
    (hdeps : depsDone done t.args = true) (hInv : Inv g done s) :
    Inv g (j :: done) (step g s (.run j)) := by
  have hsj : s.store j = none := (hInv.2 j hnd).1
  have hcj : s.cnt j = 0 := (hInv.2 j hnd).2
  have hkey : gatherVals (argEvalS s.store) t.args
      = gatherVals (argEvalL (seqUpTo g j)) t.args := by
    apply gatherVals_congr
    intro a ha
    match a with
    | .lit v => rfl
    | .ref i =>
      have hi : i ∈ done := by
        simp only [depsDone, List.all_eq_true] at hdeps
        have := hdeps (Arg.ref i) ha
        simpa using this
      have hlt : i < j := wfb_ref g hwf hj ha
      have hst : s.store i = some (outAt g i) := (hInv.1 i hi).1
      simp [argEvalS, argEvalL, hst, seqUpTo_get g hlt]
  have houtj : outAt g j = runTaskL (seqUpTo g j) t := by
    simp [outAt, hj]
  have hinvj : invokedAt g j
      = (gatherVals (argEvalL (seqUpTo g j)) t.args).isSome := by
    simp [invokedAt, hj]
  simp only [step, hsj, hj]
  cases hg : gatherVals (argEvalS s.store) t.args with
  | some vs =>
    have hout : outAt g j = applyFunc t.fn vs := by
      rw [houtj, runTaskL, ← hkey, hg]
    have hinv : invokedAt g j = true := by
      rw [hinvj, ← hkey, hg]; rfl
    constructor
    · intro i hi
      rcases List.mem_cons.mp hi with rfl | hi'
      · simp [hout, hinv, hcj]
      · have hne : i ≠ j := fun h => hnd (h ▸ hi')
        have := hInv.1 i hi'
        simp [hne, this.1, this.2]
    · intro i hi
      have hne : i ≠ j := fun h => hi (h ▸ List.mem_cons_self j done)
      have hi' : i ∉ done := fun h => hi (List.mem_cons_of_mem j h)
      have := hInv.2 i hi'
      simp [hne, this.1, this.2]
  | none =>
    have hout : outAt g j = .depError := by
      rw [houtj, runTaskL, ← hkey, hg]
    have hinv : invokedAt g j = false := by
      rw [hinvj, ← hkey, hg]; rfl
    constructor
    · intro i hi
      rcases List.mem_cons.mp hi with rfl | hi'
      · simp [hout, hinv, hcj]
      · have hne : i ≠ j := fun h => hnd (h ▸ hi')
        have := hInv.1 i hi'
        simp [hne, this.1, this.2]
    · intro i hi
      have hne : i ≠ j := fun h => hi (h ▸ List.mem_cons_self j done)
      have hi' : i ∉ done := fun h => hi (List.mem_cons_of_mem j h)
      have := hInv.2 i hi'
      simp [hne, this.1, this.2]

theorem Inv_exec_runs (g : List Task) (hwf : wfb g = true) :
    ∀ (σ done : List Nat) (s : EngState), validFrom g done σ = true → Inv g done s →
      Inv g (σ.reverse ++ done) (exec g (σ.map Action.run) s) := by
  intro σ
  induction σ with
  | nil => intro done s _ hInv; simpa [exec] using hInv
  | cons j rest ih =>
    intro done s hv hInv
    cases hj : g[j]? with
    | none => rw [validFrom, hj] at hv; exact absurd hv (by simp)
    | some t =>
      rw [validFrom, hj] at hv
      simp only [Bool.and_eq_true, decide_eq_true_eq] at hv
      obtain ⟨⟨hnd, hdeps⟩, hrest⟩ := hv
      have hstep := Inv_step_run g done s j t hwf hj hnd hdeps hInv
      have := ih (j :: done) (step g s (.run j)) hrest hstep
      have heq : rest.reverse ++ (j :: done) = (j :: rest).reverse ++ done := by
        simp
      rw [heq] at this
      simpa [exec] using this

theorem validFrom_mem (g : List Task) :
    ∀ (σ done : List Nat), validFrom g done σ = true →
      (∀ j ∈ σ, j < g.length ∧ j ∉ done) ∧ σ.Nodup := by
  intro σ
  induction σ with
  | nil => intro done _; exact ⟨by simp, List.nodup_nil⟩
  | cons j rest ih =>
    intro done hv
    cases hj : g[j]? with
    | none => rw [validFrom, hj] at hv; exact absurd hv (by simp)
    | some t =>
      rw [validFrom, hj] at hv
      simp only [Bool.and_eq_true, decide_eq_true_eq] at hv
      obtain ⟨⟨hnd, _⟩, hrest⟩ := hv
      have hjlt : j < g.length := by
        by_contra h
        rw [List.getElem?_eq_none (by omega)] at hj
        exact Option.noConfusion hj
      have hr := ih (j :: done) hrest
      constructor
      · intro j' hj'
        rcases List.mem_cons.mp hj' with rfl | hj''
        · exact ⟨hjlt, hnd⟩
        · have := hr.1 j' hj''
          exact ⟨this.1, fun h => this.2 (List.mem_cons_of_mem j h)⟩
      · refine List.nodup_cons.mpr ⟨?_, hr.2⟩
        intro hjr
        exact (hr.1 j hjr).2 (List.mem_cons_self j done)

theorem validFrom_complete (g : List Task) (σ : List Nat)
    (hv : validFrom g [] σ = true) (hlen : σ.length = g.length) :
    ∀ i, i < g.length → i ∈ σ := by
  have hb := validFrom_mem g σ [] hv
  have hsub : σ.toFinset ⊆ Finset.range g.length := by
    intro i hi
    rw [Finset.mem_range]
    exact (hb.1 i (List.mem_toFinset.mp hi)).1
  have hcard : σ.toFinset.card = g.length := by
    rw [List.toFinset_card_of_nodup hb.2, hlen]
  have heq : Finset.range g.length = σ.toFinset := by
    symm
    apply Finset.eq_of_subset_of_card_le hsub
    rw [hcard, Finset.card_range]
  intro i hi
  have : i ∈ Finset.range g.length := Finset.mem_range.mpr hi
  rw [heq] at this
  exact List.mem_toFinset.mp this

theorem Inv_runExec (g : List Task) (σ : List Nat) (hwf : wfb g = true)
    (hv : validFrom g [] σ = true) : Inv g σ.reverse (runExec g σ) := by
  have := Inv_exec_runs g hwf σ [] initState hv (Inv_init g)
  simpa [runExec] using this

/-- Determinacy of the modelled scheduler: under every dependency-respecting
complete dispatch order, every task resolves to its sequential outcome and
its callable runs exactly as often as under sequential evaluation. -/
theorem runExec_resolves (g : List Task) (σ : List Nat) (hwf : wfb g = true)
    (hv : validFrom g [] σ = true) (hlen : σ.length = g.length) :
    ∀ i, i < g.length →
      (runExec g σ).store i = some (outAt g i) ∧
      (runExec g σ).cnt i = (if invokedAt g i then 1 else 0) := by
  intro i hi
  have hmem : i ∈ σ.reverse := List.mem_reverse.mpr (validFrom_complete g σ hv hlen i hi)
  exact (Inv_runExec g σ hwf hv).1 i hmem

/-- No callable is ever invoked more than once: failed or finished tasks
are never retried. -/
theorem runExec_cnt_le_one (g : List Task) (σ : List Nat) (hwf : wfb g = true)
    (hv : validFrom g [] σ = true) : ∀ i, (runExec g σ).cnt i ≤ 1 := by
  intro i
  have hInv := Inv_runExec g σ hwf hv
  by_cases hmem : i ∈ σ.reverse
  · rw [(hInv.1 i hmem).2]
    by_cases h : invokedAt g i = true <;> simp [h]
  · rw [(hInv.2 i hmem).2]
    omega

theorem gatherVals_none (f : Arg → Outcome) :
    ∀ (args : List Arg) (a : Arg), a ∈ args → errB (f a) = true →
      gatherVals f args = none := by
  intro args
  induction args with
  | nil => intro a ha _; simp at ha
  | cons b bs ih =>
    intro a ha herr
    rcases List.mem_cons.mp ha with rfl | ha'
    · cases hfa : f a with
      | ok v => rw [hfa] at herr; simp [errB] at herr
      | taskError => simp [gatherVals, hfa]
      | depError => simp [gatherVals, hfa]
      | cancelled => rw [hfa] at herr; simp [errB] at herr
    · cases hfb : f b with
      | ok v => simp [gatherVals, hfb, ih a ha' herr]
      | taskError => simp [gatherVals, hfb]
      | depError => simp [gatherVals, hfb]
      | cancelled => simp [gatherVals, hfb]

theorem outAt_depError_of_err (g : List Task) (hwf : wfb g = true)
    {b c : Nat} {t : Task} (hb : g[b]? = some t) (hc : Arg.ref c ∈ t.args)
    (herr : errB (outAt g c) = true) :
    outAt g b = .depError ∧ invokedAt g b = false := by
  have hlt : c < b := wfb_ref g hwf hb hc
  have harg : argEvalL (seqUpTo g b) (Arg.ref c) = outAt g c := by
    simp [argEvalL, seqUpTo_get g hlt]
  have hnone : gatherVals (argEvalL (seqUpTo g b)) t.args = none := by
    apply gatherVals_none _ t.args (Arg.ref c) hc
    rw [harg]; exact herr
  constructor
  · simp [outAt, hb, runTaskL, hnone]
  · simp [invokedAt, hb, hnone]

/-- Cascading failure under sequential evaluation: a transitive
dependent of a failed task is failed-by-dependency and its callable is
never invoked. -/
theorem cascade_err (g : List Task) (hwf : wfb g = true) {a b : Nat}
    (hdep : Depends g b a) (herr : errB (outAt g a) = true) :
    outAt g b = .depError ∧ invokedAt g b = false := by
  induction hdep using Relation.TransGen.head_induction_on with
  | base h =>
    obtain ⟨t, hb, hc⟩ := h
    exact outAt_depError_of_err g hwf hb hc herr
  | ih h' _ ihp =>
    obtain ⟨t, hb, hc⟩ := h'
    refine outAt_depError_of_err g hwf hb hc ?_
    rw [ihp.1]
    rfl

theorem Depends_lt (g : List Task) {a b : Nat} (hdep : Depends g b a) :
    b < g.length := by
  induction hdep using Relation.TransGen.head_induction_on with
  | base h =>
    obtain ⟨t, hb, _⟩ := h
    by_contra hx
    rw [List.getElem?_eq_none (by omega)] at hb
    exact Option.noConfusion hb
  | ih h' _ _ =>
    obtain ⟨t, hb, _⟩ := h'
    by_contra hx
    rw [List.getElem?_eq_none (by omega)] at hb
    exact Option.noConfusion hb

/-- A single scheduler transition never moves a future out of a
terminal state, and never changes a recorded outcome. -/
theorem step_mono (g : List Task) (s : EngState) (a : Action) {i : Nat} {o : Outcome}
    (h : s.store i = some o) : (step g s a).store i = some o := by
  cases a with
  | run j =>
    cases hs : s.store j with
    | some _ => simp [step, hs, h]
    | none =>
      have hij : i ≠ j := fun he => by rw [he, hs] at h; exact Option.noConfusion h
      cases hg : g[j]? with
      | none => simp [step, hs, hg, h]
      | some t =>
        cases hgv : gatherVals (argEvalS s.store) t.args with
        | some vs => simp [step, hs, hg, hgv, hij, h]
        | none => simp [step, hs, hg, hgv, hij, h]
  | cancel j =>
    cases hs : s.store j with
    | some _ => simp [step, hs, h]
    | none =>
      have hij : i ≠ j := fun he => by rw [he, hs] at h; exact Option.noConfusion h
      simp [step, hs, hij, h]

theorem exec_mono (g : List Task) :
    ∀ (acts : List Action) (s : EngState) {i : Nat} {o : Outcome},
      s.store i = some o → (exec g acts s).store i = some o := by
  intro acts
  induction acts with
  | nil => intro s i o h; exact h
  | cons a as ih => intro s i o h; exact ih (step g s a) (step_mono g s a h)

theorem exec_append (g : List Task) :
    ∀ (as bs : List Action) (s : EngState),
      exec g (as ++ bs) s = exec g bs (exec g as s) := by
  intro as
  induction as with
  | nil => intro bs s; rfl
  | cons a as' ih => intro bs s; simp only [List.cons_append, exec]; exact ih bs _

theorem getElem?_lt {α : Type} {l : List α} {i : Nat} {x : α}
    (h : l[i]? = some x) : i < l.length := by
  by_contra hx
  rw [List.getElem?_eq_none (by omega)] at h
  exact Option.noConfusion h

theorem sum_eraseIdx : ∀ (l : List Int) (p : Nat) (a : Int), l[p]? = some a →
    a + (l.eraseIdx p).sum = l.sum := by
  intro l
  induction l with
  | nil => intro p a h; simp at h
  | cons b bs ih =>
    intro p a h
    cases p with
    | zero =>
      simp only [List.getElem?_cons_zero, Option.some.injEq] at h
      subst h
      simp [List.eraseIdx_cons_zero]
    | succ p' =>
      simp only [List.getElem?_cons_succ] at h
      have := ih p' a h
      simp only [List.eraseIdx_cons_succ, List.sum_cons]
      omega

theorem nextF_eq {α : Type} {s : CStream α} {p : Nat} {x : α} {s' : CStream α}
    (h : nextF s p = some (x, s')) :
    s.pend[p]? = some x ∧ s' = ⟨s.pend.eraseIdx p⟩ ∧ p < count s := by
  unfold nextF at h
  cases hp : s.pend[p]? with
  | none => rw [hp] at h; exact Option.noConfusion h
  | some y =>
    rw [hp] at h
    simp only [Option.some.injEq, Prod.mk.injEq] at h
    obtain ⟨rfl, rfl⟩ := h
    exact ⟨rfl, rfl, getElem?_lt hp⟩

theorem nextF_count {α : Type} {s : CStream α} {p : Nat} {x : α} {s' : CStream α}
    (h : nextF s p = some (x, s')) : count s' + 1 = count s := by
  obtain ⟨hp, rfl, hlt⟩ := nextF_eq h
  simp only [count] at hlt ⊢
  rw [List.length_eraseIdx_of_lt hlt]
  omega

theorem drainN_count {α : Type} : ∀ (ps : List Nat) (s s' : CStream α),
    drainN s ps = some s' → count s' + ps.length = count s := by
  intro ps
  induction ps with
  | nil =>
    intro s s' h
    simp only [drainN, Option.some.injEq] at h
    subst h
    simp
  | cons p ps' ih =>
    intro s s' h
    simp only [drainN] at h
    cases hp : nextF s p with
    | none => rw [hp] at h; exact Option.noConfusion h
    | some pr =>
      obtain ⟨y, s1⟩ := pr
      rw [hp] at h
      have h1 := ih s1 s' h
      have h2 := nextF_count hp
      simp only [List.length_cons]
      omega

theorem drainN_take {α : Type} : ∀ (ps : List Nat) (s s' : CStream α),
    drainN s ps = some s' → ∀ k, ∃ sk, drainN s (ps.take k) = some sk ∧
      count sk + min k ps.length = count s := by
  intro ps
  induction ps with
  | nil =>
    intro s s' _ k
    exact ⟨s, by simp [drainN], by simp⟩
  | cons p ps' ih =>
    intro s s' h k
    simp only [drainN] at h
    cases hp : nextF s p with
    | none => rw [hp] at h; exact Option.noConfusion h
    | some pr =>
      obtain ⟨y, s1⟩ := pr
      rw [hp] at h
      cases k with
      | zero => exact ⟨s, by simp [drainN], by simp⟩
      | succ k' =>
        obtain ⟨sk, hsk, hcnt⟩ := ih s1 s' h k'
        refine ⟨sk, ?_, ?_⟩
        · simp only [List.take_succ_cons, drainN, hp]
          exact hsk
        · have h2 := nextF_count hp
          simp only [List.length_cons]
          omega

theorem mergeStep_facts {s s' : CStream Int} {p q : Nat}
    (h : mergeStep s p q = some s') :
    count s' + 1 = count s ∧ s'.pend.sum = s.pend.sum := by
  cases h1 : nextF s p with
  | none => simp [mergeStep, h1] at h
  | some pr =>
    obtain ⟨a, s1⟩ := pr
    cases h2 : nextF s1 q with
    | none => simp [mergeStep, h1, h2] at h
    | some pr2 =>
      obtain ⟨b, s2⟩ := pr2
      simp only [mergeStep, h1, h2, Option.some.injEq] at h
      subst h
      obtain ⟨hp1, hs1, hlt1⟩ := nextF_eq h1
      obtain ⟨hp2, hs2, hlt2⟩ := nextF_eq h2
      have hc1 := nextF_count h1
      have hc2 := nextF_count h2
      have e1 : s1.pend = s.pend.eraseIdx p := by rw [hs1]
      have e2 : s2.pend = s1.pend.eraseIdx q := by rw [hs2]
      have hsum1 := sum_eraseIdx s.pend p a hp1
      have hsum2 := sum_eraseIdx s1.pend q b hp2
      rw [← e1] at hsum1
      rw [← e2] at hsum2
      constructor
      · simp only [count, addF, List.length_append, List.length_cons,
          List.length_nil] at hc1 hc2 ⊢
        omega
      · simp only [addF, List.sum_append, List.sum_cons, List.sum_nil]
        omega

theorem mergeLoop_spec : ∀ (picks : List (Nat × Nat)) (s sf : CStream Int)
    (rest : List (Nat × Nat)), mergeLoop s picks = some (sf, rest) →
      sf.pend.sum = s.pend.sum ∧ count sf ≤ 1 ∧
      picks.length + count sf = rest.length + count s ∧
      (1 ≤ count s → count sf = 1) := by
  intro picks
  induction picks with
  | nil =>
    intro s sf rest h
    unfold mergeLoop at h
    by_cases hc : count s ≤ 1
    · simp only [hc, if_true, Option.some.injEq, Prod.mk.injEq] at h
      obtain ⟨rfl, rfl⟩ := h
      exact ⟨rfl, hc, rfl, fun h1 => by omega⟩
    · simp [hc] at h
  | cons pq ps ih =>
    intro s sf rest h
    obtain ⟨p, q⟩ := pq
    unfold mergeLoop at h
    by_cases hc : count s ≤ 1
    · simp only [hc, if_true, Option.some.injEq, Prod.mk.injEq] at h
      obtain ⟨rfl, rfl⟩ := h
      exact ⟨rfl, hc, rfl, fun h1 => by omega⟩
    · simp only [hc, if_false] at h
      cases hms : mergeStep s p q with
      | none => rw [hms] at h; exact Option.noConfusion h
      | some s1 =>
        rw [hms] at h
        obtain ⟨hsum, hle, hlen, hone⟩ := ih s1 sf rest h
        obtain ⟨hcnt, hsum1⟩ := mergeStep_facts hms
        refine ⟨by rw [hsum, hsum1], hle, ?_, fun _ => hone (by omega)⟩
        simp only [List.length_cons]
        omega

theorem pairAdjacent_spec : ∀ (n : Nat) (l l' : List Int), l.length ≤ n →
    pairAdjacent l = some l' → 2 * l'.length = l.length ∧ l'.sum = l.sum := by
  intro n
  induction n with
  | zero =>
    intro l l' hn h
    cases l with
    | nil =>
      simp only [pairAdjacent, Option.some.injEq] at h
      subst h
      simp
    | cons a as => simp at hn
  | succ n ih =>
    intro l l' hn h
    match l with
    | [] =>
      simp only [pairAdjacent, Option.some.injEq] at h
      subst h
      simp
    | [a] => simp [pairAdjacent] at h
    | a :: b :: rest =>
      simp only [pairAdjacent, Option.map_eq_some'] at h
      obtain ⟨r', hr, rfl⟩ := h
      have hlen : rest.length ≤ n := by
        simp only [List.length_cons] at hn
        omega
      obtain ⟨h1, h2⟩ := ih rest r' hlen hr
      constructor
      · simp only [List.length_cons]
        omega
      · simp only [List.sum_cons]
        omega

theorem pairAdjacent_len_sum {l l' : List Int} (h : pairAdjacent l = some l') :
    2 * l'.length = l.length ∧ l'.sum = l.sum :=
  pairAdjacent_spec l.length l l' (Nat.le_refl _) h

theorem pairAdjacent_even : ∀ (n : Nat) (l : List Int), l.length ≤ n →
    l.length % 2 = 0 → ∃ l', pairAdjacent l = some l' := by
  intro n
  induction n with
  | zero =>
    intro l hn _
    cases l with
    | nil => exact ⟨[], rfl⟩
    | cons a as => simp at hn
  | succ n ih =>
    intro l hn hev
    match l with
    | [] => exact ⟨[], rfl⟩
    | [a] => simp at hev
    | a :: b :: rest =>
      have hlen : rest.length ≤ n := by
        simp only [List.length_cons] at hn
        omega
      have hev' : rest.length % 2 = 0 := by
        simp only [List.length_cons] at hev
        omega
      obtain ⟨r', hr⟩ := ih rest hlen hev'
      exact ⟨(a + b) :: r', by simp [pairAdjacent, hr]⟩

theorem treeReduceAux_sum : ∀ (n : Nat) (l : List Int) (r : Int),
    treeReduceAux n l = some r → r = l.sum := by
  intro n
  induction n with
  | zero =>
    intro l r h
    match l with
    | [] => simp [treeReduceAux] at h
    | [a] =>
      simp only [treeReduceAux, Option.some.injEq] at h
      subst h
      simp
    | a :: b :: rest => simp [treeReduceAux] at h
  | succ n ih =>
    intro l r h
    match l with
    | [] => simp [treeReduceAux] at h
    | [a] =>
      simp only [treeReduceAux, Option.some.injEq] at h
      subst h
      simp
    | a :: b :: rest =>
      simp only [treeReduceAux] at h
      cases hp : pairAdjacent (a :: b :: rest) with
      | none => rw [hp] at h; exact Option.noConfusion h
      | some l' =>
        rw [hp] at h
        have := ih l' r h
        rw [this, (pairAdjacent_len_sum hp).2]

theorem treeReduceAux_pow2 : ∀ (k n : Nat) (l : List Int), l.length = 2 ^ k →
    l.length ≤ n → ∃ r, treeReduceAux n l = some r := by
  intro k
  induction k with
  | zero =>
    intro n l hl _
    match l with
    | [] => simp at hl
    | [a] => exact ⟨a, by simp [treeReduceAux]⟩
    | a :: b :: rest => simp at hl
  | succ k ih =>
    intro n l hl hn
    have hpos : 0 < 2 ^ k := pow_pos (by omega) k
    have hlen2 : 2 ≤ l.length := by
      rw [hl, pow_succ]
      omega
    have hev : l.length % 2 = 0 := by
      rw [hl, pow_succ]
      omega
    obtain ⟨l', hpl⟩ := pairAdjacent_even l.length l (Nat.le_refl _) hev
    have hhalf := (pairAdjacent_len_sum hpl).1
    have hl' : l'.length = 2 ^ k := by
      rw [hl, pow_succ] at hhalf
      omega
    match n with
    | 0 => omega
    | m + 1 =>
      have hle : l'.length ≤ m := by omega
      obtain ⟨r, hr⟩ := ih m l' hl' hle
      refine ⟨r, ?_⟩
      match l, hlen2 with
      | a :: b :: rest, _ =>
        simp only [treeReduceAux, hpl, hr]

theorem outAt_compute {g : List Task} {k : Nat} {t : Task} {L : List Outcome}
    (hg : g[k]? = some t) (hs : seqUpTo g k = L) : outAt g k = runTaskL L t := by
  simp [outAt, hg, hs]

/-- Sequential evaluation of the eight-leaf reduction graph, computed
level by level. -/
theorem outAt_tree8G (v0 v1 v2 v3 v4 v5 v6 v7 : Int) :
    outAt (tree8G v0 v1 v2 v3 v4 v5 v6 v7) 14
      = .ok (((v0 + v1) + (v2 + v3)) + ((v4 + v5) + (v6 + v7))) := by
  set G := tree8G v0 v1 v2 v3 v4 v5 v6 v7 with hG
  have s0 : seqUpTo G 0 = [] := rfl
  have s1 : seqUpTo G 1 = [.ok v0] := by
    rw [seqUpTo_succ, s0, outAt_compute (t := ⟨.constF v0, []⟩) rfl s0]; rfl
  have s2 : seqUpTo G 2 = [.ok v0, .ok v1] := by
    rw [seqUpTo_succ, s1, outAt_compute (t := ⟨.constF v1, []⟩) rfl s1]; rfl
  have s3 : seqUpTo G 3 = [.ok v0, .ok v1, .ok v2] := by
    rw [seqUpTo_succ, s2, outAt_compute (t := ⟨.constF v2, []⟩) rfl s2]; rfl
  have s4 : seqUpTo G 4 = [.ok v0, .ok v1, .ok v2, .ok v3] := by
    rw [seqUpTo_succ, s3, outAt_compute (t := ⟨.constF v3, []⟩) rfl s3]; rfl
  have s5 : seqUpTo G 5 = [.ok v0, .ok v1, .ok v2, .ok v3, .ok v4] := by
    rw [seqUpTo_succ, s4, outAt_compute (t := ⟨.constF v4, []⟩) rfl s4]; rfl
  have s6 : seqUpTo G 6 = [.ok v0, .ok v1, .ok v2, .ok v3, .ok v4, .ok v5] := by
    rw [seqUpTo_succ, s5, outAt_compute (t := ⟨.constF v5, []⟩) rfl s5]; rfl
  have s7 : seqUpTo G 7
      = [.ok v0, .ok v1, .ok v2, .ok v3, .ok v4, .ok v5, .ok v6] := by
    rw [seqUpTo_succ, s6, outAt_compute (t := ⟨.constF v6, []⟩) rfl s6]; rfl
  have s8 : seqUpTo G 8
      = [.ok v0, .ok v1, .ok v2, .ok v3, .ok v4, .ok v5, .ok v6, .ok v7] := by
    rw [seqUpTo_succ, s7, outAt_compute (t := ⟨.constF v7, []⟩) rfl s7]; rfl
  have s9 : seqUpTo G 9
      = [.ok v0, .ok v1, .ok v2, .ok v3, .ok v4, .ok v5, .ok v6, .ok v7,
         .ok (v0 + v1)] := by
    rw [seqUpTo_succ, s8, outAt_compute (t := ⟨.add, [.ref 0, .ref 1]⟩) rfl s8]; rfl
  have s10 : seqUpTo G 10
      = [.ok v0, .ok v1, .ok v2, .ok v3, .ok v4, .ok v5, .ok v6, .ok v7,
         .ok (v0 + v1), .ok (v2 + v3)] := by
    rw [seqUpTo_succ, s9, outAt_compute (t := ⟨.add, [.ref 2, .ref 3]⟩) rfl s9]; rfl
  have s11 : seqUpTo G 11
      = [.ok v0, .ok v1, .ok v2, .ok v3, .ok v4, .ok v5, .ok v6, .ok v7,
         .ok (v0 + v1), .ok (v2 + v3), .ok (v4 + v5)] := by
    rw [seqUpTo_succ, s10, outAt_compute (t := ⟨.add, [.ref 4, .ref 5]⟩) rfl s10]; rfl
  have s12 : seqUpTo G 12
      = [.ok v0, .ok v1, .ok v2, .ok v3, .ok v4, .ok v5, .ok v6, .ok v7,
         .ok (v0 + v1), .ok (v2 + v3), .ok (v4 + v5), .ok (v6 + v7)] := by
    rw [seqUpTo_succ, s11, outAt_compute (t := ⟨.add, [.ref 6, .ref 7]⟩) rfl s11]; rfl
  have s13 : seqUpTo G 13
      = [.ok v0, .ok v1, .ok v2, .ok v3, .ok v4, .ok v5, .ok v6, .ok v7,
         .ok (v0 + v1), .ok (v2 + v3), .ok (v4 + v5), .ok (v6 + v7),
         .ok ((v0 + v1) + (v2 + v3))] := by
    rw [seqUpTo_succ, s12, outAt_compute (t := ⟨.add, [.ref 8, .ref 9]⟩) rfl s12]; rfl
  have s14 : seqUpTo G 14
      = [.ok v0, .ok v1, .ok v2, .ok v3, .ok v4, .ok v5, .ok v6, .ok v7,
         .ok (v0 + v1), .ok (v2 + v3), .ok (v4 + v5), .ok (v6 + v7),
         .ok ((v0 + v1) + (v2 + v3)), .ok ((v4 + v5) + (v6 + v7))] := by
    rw [seqUpTo_succ, s13, outAt_compute (t := ⟨.add, [.ref 10, .ref 11]⟩) rfl s13]; rfl
  rw [outAt_compute (t := ⟨.add, [.ref 12, .ref 13]⟩) rfl s14]
  rfl

theorem clientMap_spec (fn : Func) : ∀ (xs : List Arg) (g : List Task),
    (clientMap g fn xs).1 = g ++ xs.map (fun a => Task.mk fn [a]) ∧
    (clientMap g fn xs).2 = List.range' g.length xs.length := by
  intro xs
  induction xs with
  | nil => intro g; simp [clientMap]
  | cons a as ih =>
    intro g
    obtain ⟨h1, h2⟩ := ih (g ++ [⟨fn, [a]⟩])
    constructor
    · simp only [clientMap, submit, List.map_cons, h1, List.append_assoc,
        List.singleton_append]
    · simp only [clientMap, submit, h2, List.length_append, List.length_cons,
        List.length_nil, List.length_map, List.range'_succ]

/-- Claim C1: for every task graph with no failures, every Future eventually
resolves, and `Future.result()` returns the value obtained by sequential
evaluation of the callable chain — under any dependency-respecting complete
dispatch order, a task whose sequential evaluation yields the value `v`
resolves to exactly `v`; in particular `submit(inc, 1).result() = 2`, and for
`x = submit(inc, 1)`, `y = submit(double, 2)`,
`submit(add, x, y).result() = 6`. -/
theorem resolve_matches_sequential (g : List Task) (σ : List Nat) (i : Nat)
    (v : Int) (hwf : wfb g = true) (hv : validFrom g [] σ = true)
    (hlen : σ.length = g.length) (hi : i < g.length)
    (hval : outAt g i = .ok v) :
    (runExec g σ).store i = some (.ok v) ∧
    (runExec gInc1 [0]).store 0 = some (.ok 2) ∧
    (runExec gChain [0, 1, 2]).store 2 = some (.ok 6) := by
  refine ⟨?_, by decide, by decide⟩
  rw [(runExec_resolves g σ hwf hv hlen i hi).1, hval]

theorem resolve_matches_sequential_witness :
    (runExec gChain [0, 1, 2]).store 2 = some (.ok 6) ∧
    (runExec gInc1 [0]).store 0 = some (.ok 2) ∧
    (runExec gChain [0, 1, 2]).store 2 = some (.ok 6) :=
  resolve_matches_sequential gChain [0, 1, 2] 2 6 (by decide) (by decide)
    (by decide) (by decide) (by decide)

/-- Claim C2: if task B depends directly or transitively on task A and A
fails, then B ends failed (`depError`) with its callable never invoked
(invocation count 0) under any dependency-respecting complete dispatch
order, and the failed task is never retried (its callable runs at most
once). -/
theorem cascading_failure_skips_dependents (g : List Task) (σ : List Nat)
    (a b : Nat) (hwf : wfb g = true) (hv : validFrom g [] σ = true)
    (hlen : σ.length = g.length) (hdep : Depends g b a)
    (hfail : errB (outAt g a) = true) :
    (runExec g σ).store b = some .depError ∧
    (runExec g σ).cnt b = 0 ∧
    (runExec g σ).cnt a ≤ 1 := by
  have hblt := Depends_lt g hdep
  have hc := cascade_err g hwf hdep hfail
  have hr := runExec_resolves g σ hwf hv hlen b hblt
  refine ⟨?_, ?_, runExec_cnt_le_one g σ hwf hv a⟩
  · rw [hr.1, hc.1]
  · rw [hr.2, hc.2]
    rfl

theorem cascading_failure_skips_dependents_witness :
    (runExec gFailChain [0, 1, 2]).store 2 = some .depError ∧
    (runExec gFailChain [0, 1, 2]).cnt 2 = 0 ∧
    (runExec gFailChain [0, 1, 2]).cnt 0 ≤ 1 :=
  cascading_failure_skips_dependents gFailChain [0, 1, 2] 0 2 (by decide)
    (by decide) (by decide)
    (Relation.TransGen.head
      (show DirectDep gFailChain 2 1 from
        ⟨⟨.add, [.ref 1, .lit 5]⟩, rfl, by decide⟩)
      (Relation.TransGen.single
        (show DirectDep gFailChain 1 0 from
          ⟨⟨.inc, [.ref 0]⟩, rfl, by decide⟩)))
    (by decide)

/-- Claim C6: every Future's state machine is pending → (resolved | failed |
cancelled): a Future starts pending (`none`), and once any run of scheduler
operations (worker completions or cancellations) has recorded a terminal
outcome, every longer run still records the identical outcome — no operation
transitions a Future out of a terminal state and no status is revisited. -/
theorem future_states_terminal (g : List Task) (acts : List Action) (i : Nat)
    (k k' : Nat) (o : Outcome) (hk : k ≤ k')
    (h : (exec g (acts.take k) initState).store i = some o) :
    (exec g (acts.take k') initState).store i = some o ∧
    initState.store i = none := by
  refine ⟨?_, rfl⟩
  have hkk : k + (k' - k) = k' := by omega
  have hsplit : acts.take k' = acts.take k ++ (acts.drop k).take (k' - k) := by
    conv_lhs => rw [← hkk]
    rw [List.take_add]
  rw [hsplit, exec_append]
  exact exec_mono g _ _ h

theorem future_states_terminal_witness :
    (exec gInc1 ([Action.run 0, Action.cancel 0].take 2) initState).store 0
      = some (.ok 2) ∧
    initState.store 0 = none :=
  future_states_terminal gInc1 [Action.run 0, Action.cancel 0] 0 1 2 (.ok 2)
    (by omega) (by decide)

/-- Claim C7: `map(f, [a1, ..., an])` returns a sequence of futures of
length `n` obtained by applying `submit` elementwise in input order: the
graph is extended by one task per argument, in order, and the returned
future ids are the consecutive ids those submits produce. -/
theorem map_applies_submit_elementwise (g : List Task) (fn : Func)
    (xs : List Arg) :
    (clientMap g fn xs).2.length = xs.length ∧
    (clientMap g fn xs).1 = g ++ xs.map (fun a => Task.mk fn [a]) ∧
    (clientMap g fn xs).2 = List.range' g.length xs.length := by
  obtain ⟨h1, h2⟩ := clientMap_spec fn xs g
  exact ⟨by rw [h2, List.length_range'], h1, h2⟩

/-- Claim C8: on an already-resolved Future, every `result()` call returns
the identical stored outcome, leaves the scheduler state unchanged, and
never causes the task body to run again (invocation counts unchanged). -/
theorem result_idempotent_no_reexecution (s : EngState) (i : Nat) (o : Outcome)
    (h : s.store i = some o) :
    (result s i).1 = some o ∧ (result s i).2 = s ∧
    (result ((result s i).2) i).1 = (result s i).1 ∧
    ((result s i).2).cnt = s.cnt :=
  ⟨h, rfl, rfl, rfl⟩

theorem result_idempotent_no_reexecution_witness :
    (result (runExec gInc1 [0]) 0).1 = some (.ok 2) ∧
    (result (runExec gInc1 [0]) 0).2 = runExec gInc1 [0] ∧
    (result ((result (runExec gInc1 [0]) 0).2) 0).1
      = (result (runExec gInc1 [0]) 0).1 ∧
    ((result (runExec gInc1 [0]) 0).2).cnt = (runExec gInc1 [0]).cnt :=
  result_idempotent_no_reexecution (runExec gInc1 [0]) 0 (.ok 2) (by decide)

/-- Claim C3: for the same input set of leaf futures, the dynamic
drain-and-re-enroll strategy (repeatedly taking two futures from the
completion stream, combining them with `add`, and enrolling the result
until one remains) produces the same aggregate result as the static tree
reduction: whenever the static reduction yields `r`, any completed run of
the drain loop — under any completion order — leaves exactly the future
with value `r` in the stream. -/
theorem dynamic_merge_matches_tree_reduction (vs : List Int)
    (picks : List (Nat × Nat)) (r : Int) (sf : CStream Int)
    (rest : List (Nat × Nat)) (hs : treeReduce vs = some r)
    (hd : mergeLoop (asCompleted vs) picks = some (sf, rest)) :
    sf.pend = [r] := by
  have hsum : r = vs.sum := treeReduceAux_sum vs.length vs r hs
  have hml := mergeLoop_spec picks (asCompleted vs) sf rest hd
  have hne : 1 ≤ count (asCompleted vs) := by
    cases vs with
    | nil => simp [treeReduce, treeReduceAux] at hs
    | cons a as => simp [asCompleted, count]
  have h1 : sf.pend.length = 1 := hml.2.2.2 hne
  have h2 : sf.pend.sum = vs.sum := hml.1
  obtain ⟨x, hx⟩ := List.length_eq_one.mp h1
  rw [hx] at h2
  simp only [List.sum_cons, List.sum_nil, add_zero] at h2
  rw [hx, h2, hsum]

theorem dynamic_merge_matches_tree_reduction_witness :
    (⟨[10]⟩ : CStream Int).pend = [10] :=
  dynamic_merge_matches_tree_reduction [1, 2, 3, 4] [(0, 0), (0, 0), (0, 0)]
    10 ⟨[10]⟩ [] rfl rfl

/-- Claim C4: given eight leaf futures with known values, the notebook's
static tree reduction loop (pairing adjacent futures with `add` until one
remains) builds a graph whose root resolves to the sum of all eight
inputs under every dependency-respecting complete dispatch order of the
intermediate tasks. -/
theorem tree_reduction_sums_eight_leaves (v0 v1 v2 v3 v4 v5 v6 v7 : Int)
    (σ : List Nat) (G : List Task) (root : Nat)
    (hb : buildTree (leaves8 v0 v1 v2 v3 v4 v5 v6 v7) [0, 1, 2, 3, 4, 5, 6, 7]
      = some (G, root))
    (hv : validFrom G [] σ = true) (hlen : σ.length = G.length) :
    (runExec G σ).store root
      = some (.ok (v0 + v1 + v2 + v3 + v4 + v5 + v6 + v7)) := by
  have hbt : buildTree (leaves8 v0 v1 v2 v3 v4 v5 v6 v7) [0, 1, 2, 3, 4, 5, 6, 7]
      = some (tree8G v0 v1 v2 v3 v4 v5 v6 v7, 14) := rfl
  rw [hbt] at hb
  simp only [Option.some.injEq, Prod.mk.injEq] at hb
  obtain ⟨rfl, rfl⟩ := hb
  have hwfG : wfb (tree8G v0 v1 v2 v3 v4 v5 v6 v7) = true := rfl
  have hroot : (14 : Nat) < (tree8G v0 v1 v2 v3 v4 v5 v6 v7).length := by
    have hL : (tree8G v0 v1 v2 v3 v4 v5 v6 v7).length = 15 := rfl
    omega
  have hres := (runExec_resolves _ σ hwfG hv hlen 14 hroot).1
  rw [hres, outAt_tree8G]
  have harith : ((v0 + v1) + (v2 + v3)) + ((v4 + v5) + (v6 + v7))
      = v0 + v1 + v2 + v3 + v4 + v5 + v6 + v7 := by ring
  rw [harith]

theorem tree_reduction_sums_eight_leaves_witness :
    (runExec (tree8G 1 2 3 4 5 6 7 8)
        [0, 1, 2, 3, 4, 5, 6, 7, 8, 9, 10, 11, 12, 13, 14]).store 14
      = some (.ok 36) := by
  have := tree_reduction_sums_eight_leaves 1 2 3 4 5 6 7 8
    [0, 1, 2, 3, 4, 5, 6, 7, 8, 9, 10, 11, 12, 13, 14]
    (tree8G 1 2 3 4 5 6 7 8) 14 rfl (by decide) (by decide)
  simpa using this

/-- Claim C5: enrolling `N` futures in a completion stream and calling
`next()` exactly `N` times with no further `add()` exhausts the stream —
the final `count()` is `0` — and after any `k ≤ N` of those `next()`
calls, `count()` equals the number of enrolled futures not yet yielded,
`N - k`. -/
theorem stream_drain_exhausts (fs : List Nat) (picks : List Nat) (k : Nat)
    (sN : CStream Nat) (hd : drainN (asCompleted fs) picks = some sN)
    (hlen : picks.length = fs.length) (hk : k ≤ fs.length) :
    count sN = 0 ∧
    (drainN (asCompleted fs) (picks.take k)).map count
      = some (fs.length - k) := by
  have h0 : count (asCompleted fs) = fs.length := rfl
  have h1 := drainN_count picks (asCompleted fs) sN hd
  obtain ⟨sk, hsk, hck⟩ := drainN_take picks (asCompleted fs) sN hd k
  constructor
  · omega
  · rw [hsk, Option.map_some']
    have hcnt : count sk = fs.length - k := by
      rw [h0] at hck
      omega
    rw [hcnt]

theorem stream_drain_exhausts_witness :
    count (⟨[]⟩ : CStream Nat) = 0 ∧
    (drainN (asCompleted [5, 6, 7]) ([0, 0, 0].take 2)).map count
      = some ([5, 6, 7].length - 2) :=
  stream_drain_exhausts [5, 6, 7] [0, 0, 0] 2 ⟨[]⟩ rfl rfl (by decide)

/-- Claim C9: the dynamic merge loop terminates: from `N ≥ 1` enrolled
futures, every completed run of the drain loop performs exactly `N - 1`
iterations (each consuming one oracle entry), each iteration removes two
futures and adds one back so the count strictly decreases by one, and
exactly one future remains at exit. -/
theorem merge_loop_terminates_n_minus_one (l : List Int)
    (picks : List (Nat × Nat)) (sf : CStream Int) (rest : List (Nat × Nat))
    (m : CStream Int) (p q : Nat) (m' : CStream Int)
    (h : mergeLoop (asCompleted l) picks = some (sf, rest))
    (h1 : 1 ≤ l.length) (hstep : mergeStep m p q = some m') :
    count sf = 1 ∧ picks.length = rest.length + (l.length - 1) ∧
    count m' + 1 = count m := by
  have hml := mergeLoop_spec picks (asCompleted l) sf rest h
  have hc : count (asCompleted l) = l.length := rfl
  have hone : count sf = 1 := hml.2.2.2 (by rw [hc]; exact h1)
  refine ⟨hone, ?_, (mergeStep_facts hstep).1⟩
  have hlen := hml.2.2.1
  rw [hc] at hlen
  omega

theorem merge_loop_terminates_n_minus_one_witness :
    count (⟨[6]⟩ : CStream Int) = 1 ∧
    ([((0 : Nat), (0 : Nat)), (0, 0)] : List (Nat × Nat)).length
      = ([] : List (Nat × Nat)).length + ([1, 2, 3] : List Int).length - 1 ∧
    count (⟨[3]⟩ : CStream Int) + 1 = count (asCompleted [1, 2]) := by
  have := merge_loop_terminates_n_minus_one [1, 2, 3] [(0, 0), (0, 0)]
    ⟨[6]⟩ [] (asCompleted [1, 2]) 0 0 ⟨[3]⟩ rfl (by decide) rfl
  simpa using this

/-- Claim C10: in the static tree reduction loop, when the initial list
length is a power of two the list length is even at every level, so the
`L[i + 1]` access is in bounds at every iteration and the reduction
completes without ever indexing past the end: one level on any
even-length list succeeds and exactly halves it, and the whole loop
succeeds on any list of length `2 ^ k` (in particular 256). -/
theorem tree_reduction_inbounds_pow2 (l : List Int) (k : Nat) (m : List Int)
    (hl : l.length = 2 ^ k) (hm : m.length % 2 = 0) :
    (treeReduce l).isSome = true ∧
    (pairAdjacent m).map (fun x => 2 * x.length) = some m.length := by
  constructor
  · obtain ⟨r, hr⟩ := treeReduceAux_pow2 k l.length l hl (Nat.le_refl _)
    simp [treeReduce, hr]
  · obtain ⟨m', hm'⟩ := pairAdjacent_even m.length m (Nat.le_refl _) hm
    rw [hm', Option.map_some']
    rw [(pairAdjacent_len_sum hm').1]

theorem tree_reduction_inbounds_pow2_witness :
    (treeReduce [1, 2, 3, 4]).isSome = true ∧
    (pairAdjacent [1, 2]).map (fun x => 2 * x.length)
      = some ([1, 2] : List Int).length :=
  tree_reduction_inbounds_pow2 [1, 2, 3, 4] 2 [1, 2] (by decide) (by decide)

end DaskFutures
